import Mathlib

/-!
Shallow embedding of `lattice.py` (class `Ising2D`) and `ising_tools.py`
(`train_test_configs`, `write_configs`) from the ml-ising2d repository.

Conventions of the embedding:
* Machine integers and numpy integer arrays are modelled by `ℤ`/`ℕ` (exact
  integer arithmetic, as Python's unbounded ints).
* The spin array `self.spins` is modelled as a function `ℕ → ℤ`; the in-place
  assignment `self.spins[k] = -self.spins[k]` becomes `Function.update`.
* Floating point quantities (temperature, `np.exp`, `np.log`, `np.sqrt`,
  `random.random()` draws) are idealised as real numbers `ℝ`.
* Python's module-global Mersenne Twister is modelled abstractly: a state type
  `S`, a seeding function `ℕ → S` (the model of `random.seed`), and a step
  function `S → ℕ × S` (the model of `random.randint(0, 1)`); `random.random()`
  draws consumed by the Metropolis accept test are an explicit list of reals.
* Fallible Python evaluation (an unbound name, a missing attribute) returns
  `Except PyError`.  The local scope of `Ising2D.sweep`'s trial body binds only
  `spin_location` (and loop variables), which the environment-lookup model of
  line 129's free variable `site` makes explicit.
-/

/-- Run-time errors of the Python code that the embedding can surface:
`nameError x` models `NameError: name 'x' is not defined`, `attributeError x`
models `AttributeError` for a missing attribute `x`, and `configurationError`
stands for the `ConfigurationError` the specification describes (the source
never defines or raises it, which the error-handling theorems make precise). -/
inductive PyError where
  | nameError (x : String)
  | attributeError (x : String)
  | configurationError
deriving DecidableEq, Repr

/-- Neighbour table of `Ising2D.__init__` (lattice.py lines 47-68): for a site
`index` of a periodic `lattice_size × lattice_size` lattice, column `0` is the
right neighbour, `1` the downward, `2` the left, `3` the upward neighbour.
The source computes with Python ints; the wrapped branches are written here so
that `ℕ` subtraction never truncates under the branch guard
(`index - 1 + lattice_size` becomes `index + lattice_size - 1`, and
`index - lattice_size + n_sites` becomes `index + n_sites - lattice_size`,
equal as integers).  A column `≥ 4` is out of bounds of the `(n_sites, 4)`
numpy array and is never read; it is mapped to `0`. -/
def neighboursTable (lattice_size n_sites index : ℕ) : ℕ → ℕ
  | 0 => if index % lattice_size = lattice_size - 1
         then index + 1 - lattice_size else index + 1
  | 1 => if n_sites - lattice_size ≤ index
         then index + lattice_size - n_sites else index + lattice_size
  | 2 => if index % lattice_size = 0
         then index + lattice_size - 1 else index - 1
  | 3 => if index ≤ lattice_size - 1
         then index + n_sites - lattice_size else index - lattice_size
  | _ => 0

/-- State of an `Ising2D` instance fixed by `__init__` (lattice.py lines
24-68).  `n_spins` is `none` when `model` is neither `"ising"` nor `"gauge"`:
the Python constructor then simply never sets the attribute.  The mutable spin
array is threaded separately (it is created later by `high_T_spins`), and
`crit_temperature` is the derived real constant `crit_temperature`. -/
structure Ising2D where
  lattice_size : ℕ
  n_sites : ℕ
  model : String
  n_spins : Option ℕ
  coupling : ℤ
  neighbours : ℕ → ℕ → ℕ

/-- Body of `Ising2D.__init__(lattice_size, coupling=1, model)`: sets
`n_sites = lattice_size ** 2`, `n_spins` per variant tag, stores the coupling
and builds the neighbour table.  No validation of any argument is performed by
the source. -/
def mk_ising2d (lattice_size : ℕ) (coupling : ℤ) (model : String) : Ising2D :=
  { lattice_size := lattice_size
    n_sites := lattice_size ^ 2
    model := model
    n_spins := if model = "ising" then some (lattice_size ^ 2)
               else if model = "gauge" then some (2 * lattice_size ^ 2)
               else none
    coupling := coupling
    neighbours := neighboursTable lattice_size (lattice_size ^ 2) }

/-- Construction as a fallible operation (the interface of the specification's
`construct`): the source's `__init__` body contains no `raise`, so the result
is always `Except.ok`. -/
def construct (lattice_size : ℕ) (coupling : ℤ) (model : String) :
    Except PyError Ising2D :=
  Except.ok (mk_ising2d lattice_size coupling model)

/-- Critical temperature set by `__init__` (lattice.py line 37):
`2.0 / (np.log(1.0 + np.sqrt(2)) * self.coupling)`, idealised over `ℝ`. -/
noncomputable def crit_temperature (m : Ising2D) : ℝ :=
  2.0 / (Real.log (1.0 + Real.sqrt 2) * (m.coupling : ℝ))

/-- Loop of `Ising2D.high_T_spins` (lattice.py lines 79-81): draw
`random.randint(0, 1)` once per spin, in index order, mapping a draw `b` to the
spin `2*b - 1`.  `randint01` is the abstract deterministic generator step. -/
def high_T_go {S : Type} (randint01 : S → ℕ × S) : ℕ → S → List ℤ
  | 0, _ => []
  | Nat.succ count, state =>
      (2 * ((randint01 state).1 : ℤ) - 1) ::
        high_T_go randint01 count (randint01 state).2

/-- `Ising2D.high_T_spins(random_state)` (lattice.py lines 70-81):
`random.seed(random_state)` resets the generator to `seed random_state`, then
`n_spins` draws fill the array.  Reading `self.n_spins` on an instance whose
variant tag was unrecognised raises `AttributeError`. -/
def high_T_spins {S : Type} (seed : ℕ → S) (randint01 : S → ℕ × S)
    (m : Ising2D) (random_state : ℕ) : Except PyError (List ℤ) :=
  match m.n_spins with
  | none => Except.error (PyError.attributeError "n_spins")
  | some n_spins => Except.ok (high_T_go randint01 n_spins (seed random_state))

/-- Product of the four link spins of the plaquette anchored at site `index`,
exactly the expression of lattice.py lines 97-99 (and repeated at lines 139-141
and 142-144):
`spins[2*index] * spins[2*index+1] * spins[2*neighbours[index,1]] *
 spins[2*neighbours[index,0]+1]`. -/
def plaquette (m : Ising2D) (spins : ℕ → ℤ) (index : ℕ) : ℤ :=
  spins (2 * index) * spins (2 * index + 1) *
    spins (2 * m.neighbours index 1) * spins (2 * m.neighbours index 0 + 1)

/-- The four spin-array indices the plaquette at site `index` reads. -/
def plaquetteLinks (m : Ising2D) (index : ℕ) : List ℕ :=
  [2 * index, 2 * index + 1, 2 * m.neighbours index 1,
    2 * m.neighbours index 0 + 1]

/-- `Ising2D.get_energy` (lattice.py lines 83-99): a loop over all sites
accumulating `-coupling * (spins[i]*spins[right i] + spins[i]*spins[down i])`
for the Ising variant and `-coupling * plaquette i` for the gauge variant.
For any other tag the loop body of neither branch runs and the initial
`self.energy = 0` is kept. -/
def get_energy (m : Ising2D) (spins : ℕ → ℤ) : ℤ :=
  if m.model = "ising" then
    (List.range m.n_sites).foldl
      (fun energy index =>
        energy + (-m.coupling *
          (spins index * spins (m.neighbours index 0) +
           spins index * spins (m.neighbours index 1)))) 0
  else if m.model = "gauge" then
    (List.range m.n_sites).foldl
      (fun energy index => energy + (-m.coupling * plaquette m spins index)) 0
  else 0

/-- In-place spin flip of lattice.py line 147:
`self.spins[spin_location] = -self.spins[spin_location]`. -/
def flip_spin (spins : ℕ → ℤ) (spin_location : ℕ) : ℕ → ℤ :=
  Function.update spins spin_location (-(spins spin_location))

/-- Python name resolution in a local scope: the value bound to `x`, or
`NameError` when `x` is unbound. -/
def lookupName (env : List (String × ℕ)) (x : String) : Except PyError ℕ :=
  match env.find? (fun p => p.1 == x) with
  | some p => Except.ok p.2
  | none => Except.error (PyError.nameError x)

/-- Gauge branch of the energy difference in `Ising2D.sweep` (lattice.py lines
130-144): `first_plaquette = spin_location // 2`, the second plaquette is the
upward neighbour for an even link index and the left neighbour for an odd one,
and `deltaE = 2 * coupling * (plaquette first + plaquette second)` with the
current (pre-flip) plaquette products. -/
def gauge_deltaE (m : Ising2D) (spins : ℕ → ℤ) (spin_location : ℕ) : ℤ :=
  2 * m.coupling *
    (plaquette m spins (spin_location / 2) +
     plaquette m spins
       (if spin_location % 2 = 0
        then m.neighbours (spin_location / 2) 3
        else m.neighbours (spin_location / 2) 2))

/-- Energy-difference phase of one trial of `Ising2D.sweep` (lattice.py lines
126-144).  The Ising branch (lines 127-129) evaluates
`self.spins[site]` where the trial's local scope binds only `spin_location`,
so the lookup of the free name `site` fails with `NameError`.  For any
unrecognised tag neither branch assigns `deltaE` and line 146's read of
`deltaE` fails with `NameError`. -/
def sweepTrialDeltaE (m : Ising2D) (spins : ℕ → ℤ) (spin_location : ℕ) :
    Except PyError ℤ :=
  if m.model = "ising" then
    match lookupName [("spin_location", spin_location)] "site" with
    | Except.error e => Except.error e
    | Except.ok site =>
        Except.ok ((List.range 4).foldl
          (fun deltaE neigh =>
            deltaE + 2 * m.coupling *
              (spins site * spins (m.neighbours site neigh))) 0)
  else if m.model = "gauge" then
    Except.ok (gauge_deltaE m spins spin_location)
  else
    Except.error (PyError.nameError "deltaE")

/-- Accept/reject phase of one trial of `Ising2D.sweep` (lattice.py lines
146-147): `if (deltaE <= 0) or (random.random() < np.exp(-deltaE /
temperature)): flip`.  Python's `or` short-circuits, so for `deltaE ≤ 0` no
`random.random()` draw is consumed; otherwise exactly one draw `u` is taken
from the stream and compared with `exp(-deltaE / temperature)`.  The result is
the new spin array and the remaining stream. -/
noncomputable def metropolisStep (spins : ℕ → ℤ) (spin_location : ℕ)
    (deltaE : ℤ) (temperature : ℝ) (draws : List ℝ) : (ℕ → ℤ) × List ℝ :=
  if deltaE ≤ 0 then (flip_spin spins spin_location, draws)
  else
    match draws with
    | [] => (spins, [])
    | u :: rest =>
        if u < Real.exp (-(deltaE : ℝ) / temperature)
        then (flip_spin spins spin_location, rest)
        else (spins, rest)

/-- One full trial of `Ising2D.sweep` (lattice.py lines 121-147) at a given
chosen site, composing the energy-difference phase with the accept/reject
phase.  The source performs no validation of `temperature`. -/
noncomputable def sweepTrial (m : Ising2D) (spins : ℕ → ℤ) (temperature : ℝ)
    (spin_location : ℕ) (draws : List ℝ) :
    Except PyError ((ℕ → ℤ) × List ℝ) :=
  match sweepTrialDeltaE m spins spin_location with
  | Except.error e => Except.error e
  | Except.ok deltaE =>
      Except.ok (metropolisStep spins spin_location deltaE temperature draws)

/-- Whether a fallible result is the specification's `ConfigurationError`. -/
def isConfigurationError {α : Type} : Except PyError α → Bool
  | Except.error PyError.configurationError => true
  | _ => false

/-- Destination choice of `train_test_configs` (ising_tools.py lines 4-19):
`true` selects the training pair (`Xtrain.txt`/`ytrain.txt`), chosen when
`bins < train_frac * n_bins`. -/
noncomputable def train_test_configs (bins n_bins : ℕ) (train_frac : ℝ) :
    Bool :=
  if (bins : ℝ) < train_frac * (n_bins : ℝ) then true else false

/-- Result of `write_configs`: the model state it leaves behind (threaded
explicitly, as the stateful code is embedded by state passing) and what it
wrote — the destination pair, the encoded spin line and the phase digit — or
the error it raised. -/
structure WriteResult where
  spin_model : Ising2D
  spins : ℕ → ℤ
  output : Except PyError (Bool × List ℤ × ℕ)

/-- `write_configs(bins, n_bins, train_frac, temperature, spin_model)`
(ising_tools.py lines 22-55): chooses the destination pair, draws a global
sign `flip = 2*random.randint(0,1) - 1` (the draw is `flip_draw` here), writes
each spin as `flip * spins[index]` with `-1` re-encoded as `0`, and writes the
phase digit `1` iff `temperature > spin_model.crit_temperature`.  The function
only reads the model: the state it returns is the state it was given. -/
noncomputable def write_configs (bins n_bins : ℕ) (train_frac temperature : ℝ)
    (spin_model : Ising2D) (spins : ℕ → ℤ) (flip_draw : ℕ) : WriteResult :=
  { spin_model := spin_model
    spins := spins
    output :=
      match spin_model.n_spins with
      | none => Except.error (PyError.attributeError "n_spins")
      | some n_spins =>
          Except.ok
            (train_test_configs bins n_bins train_frac,
             (List.range n_spins).map (fun index =>
               let current_spin := (2 * (flip_draw : ℤ) - 1) * spins index
               if current_spin = -1 then 0 else current_spin),
             if crit_temperature spin_model < temperature then 1 else 0) }

/-! ## Helper lemmas -/

/-- Accumulating loops over `range n` are finite sums. -/
theorem foldl_add_range (f : ℕ → ℤ) (n : ℕ) (e : ℤ) :
    (List.range n).foldl (fun a i => a + f i) e = e + ∑ i in Finset.range n, f i := by
  induction n generalizing e with
  | zero => simp
  | succ m ih =>
      rw [List.range_succ, List.foldl_append, ih, Finset.sum_range_succ]
      simp [add_assoc]

theorem mul_add_mod_small (L q r : ℕ) (hr : r < L) : (L * q + r) % L = r := by
  rw [Nat.mul_add_mod, Nat.mod_eq_of_lt hr]

/-- Row/column decomposition of a site index of an `L × L` lattice. -/
theorem site_decomp (L i : ℕ) (hL : 0 < L) (hi : i < L * L) :
    ∃ q r, q < L ∧ r < L ∧ i = L * q + r :=
  ⟨i / L, i % L, (Nat.div_lt_iff_lt_mul hL).mpr hi, Nat.mod_lt i hL,
    (Nat.div_add_mod i L).symm⟩

/-- Every neighbour-table entry is a valid site index. -/
theorem neighboursTable_lt (L i : ℕ) (hL : 0 < L) (hi : i < L * L) (d : ℕ) :
    neighboursTable L (L * L) i d < L * L := by
  obtain ⟨q, r, hq, hr, rfl⟩ := site_decomp L i hL hi
  have hqL : L * q + L ≤ L * L := by
    calc L * q + L = L * (q + 1) := by ring
    _ ≤ L * L := Nat.mul_le_mul_left L hq
  rcases d with _ | _ | _ | _ | d
  · simp only [neighboursTable, mul_add_mod_small L q r hr]
    split_ifs with h <;> omega
  · simp only [neighboursTable]
    split_ifs with h <;> omega
  · simp only [neighboursTable, mul_add_mod_small L q r hr]
    split_ifs with h <;> omega
  · simp only [neighboursTable]
    split_ifs with h <;> omega
  · show 0 < L * L
    omega

/-- Left neighbour of the right neighbour. -/
theorem left_right_id (L i : ℕ) (hL : 0 < L) (hi : i < L * L) :
    neighboursTable L (L * L) (neighboursTable L (L * L) i 0) 2 = i := by
  obtain ⟨q, r, hq, hr, rfl⟩ := site_decomp L i hL hi
  have hmod : (L * q + r) % L = r := mul_add_mod_small L q r hr
  by_cases h : r = L - 1
  · have h1 : neighboursTable L (L * L) (L * q + r) 0 = L * q := by
      simp only [neighboursTable]
      rw [hmod, if_pos h]
      omega
    rw [h1]
    have h2 : (L * q) % L = 0 := Nat.mul_mod_right L q
    simp only [neighboursTable]
    split_ifs with hc <;> omega
  · have h1 : neighboursTable L (L * L) (L * q + r) 0 = L * q + (r + 1) := by
      simp only [neighboursTable]
      rw [hmod, if_neg h]
      omega
    rw [h1]
    have h2 : (L * q + (r + 1)) % L = r + 1 := mul_add_mod_small L q (r + 1) (by omega)
    simp only [neighboursTable]
    split_ifs with hc <;> omega

/-- Right neighbour of the left neighbour. -/
theorem right_left_id (L i : ℕ) (hL : 0 < L) (hi : i < L * L) :
    neighboursTable L (L * L) (neighboursTable L (L * L) i 2) 0 = i := by
  obtain ⟨q, r, hq, hr, rfl⟩ := site_decomp L i hL hi
  have hmod : (L * q + r) % L = r := mul_add_mod_small L q r hr
  by_cases h : r = 0
  · have h1 : neighboursTable L (L * L) (L * q + r) 2 = L * q + (L - 1) := by
      simp only [neighboursTable]
      rw [hmod, if_pos h]
      omega
    rw [h1]
    have h2 : (L * q + (L - 1)) % L = L - 1 := mul_add_mod_small L q (L - 1) (by omega)
    simp only [neighboursTable]
    split_ifs with hc <;> omega
  · have h1 : neighboursTable L (L * L) (L * q + r) 2 = L * q + (r - 1) := by
      simp only [neighboursTable]
      rw [hmod, if_neg h]
      omega
    rw [h1]
    have h2 : (L * q + (r - 1)) % L = r - 1 := mul_add_mod_small L q (r - 1) (by omega)
    simp only [neighboursTable]
    split_ifs with hc <;> omega

/-- Upward neighbour of the downward neighbour. -/
theorem up_down_id (L i : ℕ) (hL : 0 < L) (hi : i < L * L) :
    neighboursTable L (L * L) (neighboursTable L (L * L) i 1) 3 = i := by
  have hLB : L ≤ L * L := Nat.le_mul_of_pos_left L hL
  by_cases h : L * L - L ≤ i
  · have h1 : neighboursTable L (L * L) i 1 = i + L - L * L := by
      simp only [neighboursTable, if_pos h]
    rw [h1]
    simp only [neighboursTable]
    rw [if_pos (by omega : i + L - L * L ≤ L - 1)]
    omega
  · have h1 : neighboursTable L (L * L) i 1 = i + L := by
      simp only [neighboursTable, if_neg h]
    rw [h1]
    simp only [neighboursTable]
    rw [if_neg (by omega : ¬(i + L ≤ L - 1))]
    omega

/-- Downward neighbour of the upward neighbour. -/
theorem down_up_id (L i : ℕ) (hL : 0 < L) (hi : i < L * L) :
    neighboursTable L (L * L) (neighboursTable L (L * L) i 3) 1 = i := by
  have hLB : L ≤ L * L := Nat.le_mul_of_pos_left L hL
  by_cases h : i ≤ L - 1
  · have h1 : neighboursTable L (L * L) i 3 = i + L * L - L := by
      simp only [neighboursTable, if_pos h]
    rw [h1]
    simp only [neighboursTable]
    rw [if_pos (by omega : L * L - L ≤ i + L * L - L)]
    omega
  · have h1 : neighboursTable L (L * L) i 3 = i - L := by
      simp only [neighboursTable, if_neg h]
    rw [h1]
    simp only [neighboursTable]
    rw [if_neg (by omega : ¬(L * L - L ≤ i - L))]
    omega

/-- On a lattice with at least two rows the downward neighbour is distinct. -/
theorem down_ne (L i : ℕ) (hL2 : 2 ≤ L) (hi : i < L * L) :
    neighboursTable L (L * L) i 1 ≠ i := by
  have h2L : 2 * L ≤ L * L := Nat.mul_le_mul_right L hL2
  simp only [neighboursTable]
  split_ifs with h <;> omega

/-- On a lattice with at least two columns the right neighbour is distinct. -/
theorem right_ne (L i : ℕ) (hL2 : 2 ≤ L) (hi : i < L * L) :
    neighboursTable L (L * L) i 0 ≠ i := by
  have hm : i % L ≤ i := Nat.mod_le i L
  simp only [neighboursTable]
  split_ifs with h <;> omega

/-- On a lattice with at least two rows the upward neighbour is distinct. -/
theorem up_ne (L i : ℕ) (hL2 : 2 ≤ L) (hi : i < L * L) :
    neighboursTable L (L * L) i 3 ≠ i := by
  have h2L : 2 * L ≤ L * L := Nat.mul_le_mul_right L hL2
  simp only [neighboursTable]
  split_ifs with h <;> omega

/-- On a lattice with at least two columns the left neighbour is distinct. -/
theorem left_ne (L i : ℕ) (hL2 : 2 ≤ L) (hi : i < L * L) :
    neighboursTable L (L * L) i 2 ≠ i := by
  have hm : i % L ≤ i := Nat.mod_le i L
  simp only [neighboursTable]
  split_ifs with h <;> omega

/-- The sites whose downward neighbour is `p` are exactly `p`'s upward
neighbour. -/
theorem down_eq_iff (L p q : ℕ) (hL : 0 < L) (hp : p < L * L) (hq : q < L * L) :
    neighboursTable L (L * L) q 1 = p ↔ q = neighboursTable L (L * L) p 3 := by
  constructor
  · intro h
    have := up_down_id L q hL hq
    rw [h] at this
    exact this.symm
  · intro h
    rw [h]
    exact down_up_id L p hL hp

/-- The sites whose right neighbour is `p` are exactly `p`'s left neighbour. -/
theorem right_eq_iff (L p q : ℕ) (hL : 0 < L) (hp : p < L * L) (hq : q < L * L) :
    neighboursTable L (L * L) q 0 = p ↔ q = neighboursTable L (L * L) p 2 := by
  constructor
  · intro h
    have := left_right_id L q hL hq
    rw [h] at this
    exact this.symm
  · intro h
    rw [h]
    exact right_left_id L p hL hp

/-- Sum of an indicator of two distinct indices inside `range n`. -/
theorem sum_ite_or (n a b : ℕ) (hab : a ≠ b) (ha : a < n) (hb : b < n)
    (f : ℕ → ℤ) :
    (∑ q in Finset.range n, if q = a ∨ q = b then f q else 0) = f a + f b := by
  have h : ∀ q, (if q = a ∨ q = b then f q else 0) =
      (if q = a then f q else 0) + (if q = b then f q else 0) := by
    intro q
    by_cases h1 : q = a <;> by_cases h2 : q = b <;> simp_all
  simp only [h]
  rw [Finset.sum_add_distrib, Finset.sum_ite_eq' (Finset.range n) a f,
    Finset.sum_ite_eq' (Finset.range n) b f]
  simp [Finset.mem_range.mpr ha, Finset.mem_range.mpr hb]

/-- Every spin `high_T_go` produces from draws in `{0, 1}` is `+1` or `-1`. -/
theorem high_T_go_pm {S : Type} (randint01 : S → ℕ × S)
    (hdraw : ∀ st, (randint01 st).1 ≤ 1) :
    ∀ (count : ℕ) (st : S), ∀ x ∈ high_T_go randint01 count st,
      x = 1 ∨ x = -1 := by
  intro count
  induction count with
  | zero => intro st x hx; simp [high_T_go] at hx
  | succ m ih =>
      intro st x hx
      simp only [high_T_go, List.mem_cons] at hx
      rcases hx with h | h
      · have hb : (randint01 st).1 ≤ 1 := hdraw st
        interval_cases hbv : (randint01 st).1 <;> subst h <;> simp_all <;> omega
      · exact ih (randint01 st).2 x h

/-! ## Claim theorems -/

/-- C1: the claim (and the specification) say the Ising branch of `sweep`
computes the local energy change at the spin index chosen in the same trial
(`spin_location`), but lattice.py line 129 reads `self.spins[site]` where the
name `site` is unbound in the trial's scope, so every Ising trial raises
`NameError: name 'site' is not defined` before any energy difference is
computed — evaluated here at lattice size 2, coupling 1, all-up spins, chosen
index 0. -/
theorem ising_sweep_deltaE_nameError :
    sweepTrialDeltaE (mk_ising2d 2 1 "ising") (fun _ => 1) 0 =
      Except.error (PyError.nameError "site") := rfl

/-- C3: in the accept/reject phase of a sweep trial, a move with `deltaE ≤ 0`
is accepted unconditionally and consumes no accept/reject draw (the stream is
returned untouched); a move with `deltaE > 0` consumes exactly one draw `u`
and is accepted iff `u < exp(-deltaE / temperature)`; acceptance negates the
chosen spin in place and rejection leaves every element unchanged. -/
theorem metropolis_accept_spec (spins : ℕ → ℤ) (spin_location : ℕ)
    (deltaE : ℤ) (temperature : ℝ) (u : ℝ) (rest : List ℝ) :
    (∀ draws, deltaE ≤ 0 →
        metropolisStep spins spin_location deltaE temperature draws =
          (flip_spin spins spin_location, draws))
    ∧ (0 < deltaE →
        metropolisStep spins spin_location deltaE temperature (u :: rest) =
          ((if u < Real.exp (-(deltaE : ℝ) / temperature)
            then flip_spin spins spin_location else spins), rest))
    ∧ flip_spin spins spin_location spin_location = -(spins spin_location)
    ∧ (∀ j, j ≠ spin_location → flip_spin spins spin_location j = spins j) := by
  refine ⟨?_, ?_, ?_, ?_⟩
  · intro draws h
    simp only [metropolisStep, if_pos h]
  · intro h
    simp only [metropolisStep, if_neg (not_le.mpr h)]
    split_ifs <;> rfl
  · simp [flip_spin]
  · intro j hj
    simp [flip_spin, Function.update_noteq hj]

/-- C4 counterexample: construction with size 0 and construction with an
unrecognised variant tag both complete normally instead of failing with
`ConfigurationError`. -/
theorem construct_no_validation_counterexample :
    construct 0 1 "ising" = Except.ok (mk_ising2d 0 1 "ising")
    ∧ construct 3 1 "foo" = Except.ok (mk_ising2d 3 1 "foo") := ⟨rfl, rfl⟩

/-- C4 (amended): the source performs no argument validation: construction
succeeds for every size, coupling and variant tag; an unrecognised tag merely
leaves `n_spins` unset (failing only on a later attribute access); and no part
of a sweep trial ever raises `ConfigurationError` — in particular `sweep` has
no temperature check. -/
theorem no_configuration_error :
    (∀ (lattice_size : ℕ) (coupling : ℤ) (model : String),
        construct lattice_size coupling model =
          Except.ok (mk_ising2d lattice_size coupling model))
    ∧ (∀ (lattice_size : ℕ) (coupling : ℤ) (model : String),
        (mk_ising2d lattice_size coupling model).n_spins = none ↔
          model ≠ "ising" ∧ model ≠ "gauge")
    ∧ (∀ (m : Ising2D) (spins : ℕ → ℤ) (temperature : ℝ)
        (spin_location : ℕ) (draws : List ℝ),
        isConfigurationError
          (sweepTrial m spins temperature spin_location draws) = false) := by
  refine ⟨fun _ _ _ => rfl, ?_, ?_⟩
  · intro lattice_size coupling model
    simp only [mk_ising2d]
    split_ifs with h1 h2 <;> simp_all
  · intro m spins temperature spin_location draws
    have hlk : lookupName [("spin_location", spin_location)] "site" =
        Except.error (PyError.nameError "site") := rfl
    simp only [sweepTrial, sweepTrialDeltaE, hlk]
    split_ifs with h1 h2 <;> rfl

/-- C7: for the Ising variant `get_energy` is the sum over all sites of
`-coupling * (spins[i]*spins[right i] + spins[i]*spins[down i])` (each
undirected bond counted once, through the right and down bond of exactly one
site), and on the 2×2 lattice with coupling 1 and all spins `+1` it equals
`-8`. -/
theorem ising_energy_formula (L : ℕ) (J : ℤ) (spins : ℕ → ℤ) :
    get_energy (mk_ising2d L J "ising") spins =
      (∑ i in Finset.range ((mk_ising2d L J "ising").n_sites),
        -J * (spins i * spins ((mk_ising2d L J "ising").neighbours i 0) +
              spins i * spins ((mk_ising2d L J "ising").neighbours i 1)))
    ∧ get_energy (mk_ising2d 2 1 "ising") (fun _ => 1) = -8 := by
  constructor
  · have hmodel : (mk_ising2d L J "ising").model = "ising" := rfl
    simp only [get_energy, if_pos hmodel]
    exact (foldl_add_range _ _ 0).trans (zero_add _)
  · decide

/-- C9: `write_configs` only reads the model: the spin array, the coupling,
the derived critical temperature and the neighbour table are identical before
and after the call, although a random global sign flip is applied to the
values written out. -/
theorem write_configs_frame (bins n_bins : ℕ) (train_frac temperature : ℝ)
    (spin_model : Ising2D) (spins : ℕ → ℤ) (flip_draw : ℕ) :
    (write_configs bins n_bins train_frac temperature spin_model spins
        flip_draw).spin_model = spin_model
    ∧ (write_configs bins n_bins train_frac temperature spin_model spins
        flip_draw).spins = spins
    ∧ (write_configs bins n_bins train_frac temperature spin_model spins
        flip_draw).spin_model.coupling = spin_model.coupling
    ∧ (write_configs bins n_bins train_frac temperature spin_model spins
        flip_draw).spin_model.neighbours = spin_model.neighbours
    ∧ crit_temperature
        (write_configs bins n_bins train_frac temperature spin_model spins
          flip_draw).spin_model = crit_temperature spin_model :=
  ⟨rfl, rfl, rfl, rfl, rfl⟩

/-- C5: the neighbour-table entries satisfy the wrapped index formulas, stated
over `ℤ` (exact integer arithmetic): right is `i+1` wrapped to `i+1-L` on the
last column, down is `i+L` wrapped to `i+L-n_sites` on the last row, left is
`i-1` wrapped to `i-1+L` on the first column, up is `i-L` wrapped to
`i-L+n_sites` on the first row; in particular site 0's left neighbour is `L-1`
and site `L-1`'s right neighbour is 0. -/
theorem neighbour_formulas (L : ℕ) (J : ℤ) (tag : String) (hL : 0 < L)
    (i : ℕ) (hi : i < (mk_ising2d L J tag).n_sites) :
    (((mk_ising2d L J tag).neighbours i 0 : ℤ) =
      if i % L = L - 1 then (i : ℤ) + 1 - (L : ℤ) else (i : ℤ) + 1)
    ∧ (((mk_ising2d L J tag).neighbours i 1 : ℤ) =
      if (mk_ising2d L J tag).n_sites - L ≤ i
      then (i : ℤ) + (L : ℤ) - ((mk_ising2d L J tag).n_sites : ℤ)
      else (i : ℤ) + (L : ℤ))
    ∧ (((mk_ising2d L J tag).neighbours i 2 : ℤ) =
      if i % L = 0 then (i : ℤ) - 1 + (L : ℤ) else (i : ℤ) - 1)
    ∧ (((mk_ising2d L J tag).neighbours i 3 : ℤ) =
      if i < L then (i : ℤ) - (L : ℤ) + ((mk_ising2d L J tag).n_sites : ℤ)
      else (i : ℤ) - (L : ℤ))
    ∧ (mk_ising2d L J tag).neighbours 0 2 = L - 1
    ∧ (mk_ising2d L J tag).neighbours (L - 1) 0 = 0 := by
  simp only [mk_ising2d] at hi ⊢
  have hm : i % L ≤ i := Nat.mod_le i L
  have hmL : i % L < L := Nat.mod_lt i hL
  have hLB : L ≤ L ^ 2 := by
    rw [pow_two]
    exact Nat.le_mul_of_pos_left L hL
  refine ⟨?_, ?_, ?_, ?_, ?_, ?_⟩
  · simp only [neighboursTable]
    split_ifs with h <;> omega
  · simp only [neighboursTable]
    split_ifs with h <;> omega
  · simp only [neighboursTable]
    split_ifs with h <;> omega
  · simp only [neighboursTable]
    split_ifs with h h2 h2 <;> omega
  · have hmod : (0 : ℕ) % L = 0 := Nat.zero_mod L
    simp only [neighboursTable]
    split_ifs with h <;> omega
  · have hmod : (L - 1) % L = L - 1 := Nat.mod_eq_of_lt (by omega)
    simp only [neighboursTable]
    rw [hmod, if_pos rfl]
    omega

/-- C5 witness: the formulas evaluated on the 2×2 lattice: site 0's left
neighbour is `L - 1 = 1` and site `L - 1 = 1`'s right neighbour is 0. -/
theorem neighbour_formulas_witness :
    (mk_ising2d 2 1 "ising").neighbours 0 2 = 2 - 1
    ∧ (mk_ising2d 2 1 "ising").neighbours (2 - 1) 0 = 0 :=
  ⟨(neighbour_formulas 2 1 "ising" (by decide) 0 (by decide)).2.2.2.2.1,
   (neighbour_formulas 2 1 "ising" (by decide) 0 (by decide)).2.2.2.2.2⟩

/-- C6: every neighbour-table entry is a valid site index in `[0, n_sites)`,
and the four directional round trips hold: left∘right, right∘left, up∘down
and down∘up are each the identity on site indices. -/
theorem neighbour_range_roundtrip (L : ℕ) (J : ℤ) (tag : String) (hL : 0 < L)
    (i : ℕ) (hi : i < (mk_ising2d L J tag).n_sites) (d : ℕ) (hd : d < 4) :
    (mk_ising2d L J tag).neighbours i d < (mk_ising2d L J tag).n_sites
    ∧ (mk_ising2d L J tag).neighbours ((mk_ising2d L J tag).neighbours i 0) 2
        = i
    ∧ (mk_ising2d L J tag).neighbours ((mk_ising2d L J tag).neighbours i 2) 0
        = i
    ∧ (mk_ising2d L J tag).neighbours ((mk_ising2d L J tag).neighbours i 1) 3
        = i
    ∧ (mk_ising2d L J tag).neighbours ((mk_ising2d L J tag).neighbours i 3) 1
        = i := by
  simp only [mk_ising2d] at hi ⊢
  rw [pow_two] at hi ⊢
  exact ⟨neighboursTable_lt L i hL hi d, left_right_id L i hL hi,
    right_left_id L i hL hi, up_down_id L i hL hi, down_up_id L i hL hi⟩

/-- C6 witness: on the 2×2 lattice the right neighbour of site 0 is in range
and the round trips close at site 0. -/
theorem neighbour_range_roundtrip_witness :
    (mk_ising2d 2 1 "ising").neighbours 0 0 < (mk_ising2d 2 1 "ising").n_sites
    ∧ (mk_ising2d 2 1 "ising").neighbours
        ((mk_ising2d 2 1 "ising").neighbours 0 0) 2 = 0 :=
  ⟨(neighbour_range_roundtrip 2 1 "ising" (by decide) 0 (by decide) 0
      (by decide)).1,
   (neighbour_range_roundtrip 2 1 "ising" (by decide) 0 (by decide) 0
      (by decide)).2.1⟩

/-- C8: `high_T_spins` is deterministic in the seed: on models constructed
with identical parameters (hence on two calls on the same model) the same
`random_state` produces element-for-element identical spin arrays, and — the
generator step returning only 0 or 1, as `random.randint(0, 1)` does — every
element is `+1` or `-1`. -/
theorem high_T_spins_deterministic {S : Type} (seed : ℕ → S)
    (randint01 : S → ℕ × S) (L : ℕ) (J : ℤ) (tag : String) (random_state : ℕ)
    (hdraw : ∀ st, (randint01 st).1 ≤ 1) :
    high_T_spins seed randint01 (mk_ising2d L J tag) random_state =
      high_T_spins seed randint01 (mk_ising2d L J tag) random_state
    ∧ ∀ l, high_T_spins seed randint01 (mk_ising2d L J tag) random_state =
        Except.ok l → ∀ x ∈ l, x = 1 ∨ x = -1 := by
  refine ⟨rfl, ?_⟩
  intro l hl x hx
  cases hms : (mk_ising2d L J tag).n_spins with
  | none =>
      simp only [high_T_spins, hms] at hl
      exact (Except.noConfusion hl)
  | some n =>
      simp only [high_T_spins, hms, Except.ok.injEq] at hl
      subst hl
      exact high_T_go_pm randint01 hdraw n (seed random_state) x hx

/-- C8 witness: a concrete generator (state `ℕ`, step `st ↦ (st % 2, st+1)`)
on the 2×2 Ising model with seed 0. -/
theorem high_T_spins_deterministic_witness :
    high_T_spins (fun s => s) (fun st => (st % 2, st + 1))
        (mk_ising2d 2 1 "ising") 0 =
      high_T_spins (fun s => s) (fun st => (st % 2, st + 1))
        (mk_ising2d 2 1 "ising") 0
    ∧ ∀ l, high_T_spins (fun s => s) (fun st => (st % 2, st + 1))
        (mk_ising2d 2 1 "ising") 0 = Except.ok l →
          ∀ x ∈ l, x = 1 ∨ x = -1 :=
  high_T_spins_deterministic (fun s => s) (fun st => (st % 2, st + 1)) 2 1
    "ising" 0 (fun st => Nat.le_of_lt_succ (Nat.mod_lt st (by omega)))

/-- C10: for the gauge variant every spin-array index read by `get_energy` or
by the gauge branch of `sweep` — `2p`, `2p+1`, `2*neighbours[p,1]` and
`2*neighbours[p,0]+1` for `p` a site index, and the site indices `k / 2` and
its chosen second plaquette derived from a link index `k` — lies in
`[0, 2*n_sites)`, the length of the gauge spin array. -/
theorem gauge_spin_index_bounds (L : ℕ) (J : ℤ) (hL : 0 < L) :
    (∀ p, p < (mk_ising2d L J "gauge").n_sites →
      ∀ j ∈ plaquetteLinks (mk_ising2d L J "gauge") p,
        j < 2 * (mk_ising2d L J "gauge").n_sites)
    ∧ (∀ k, k < 2 * (mk_ising2d L J "gauge").n_sites →
        k / 2 < (mk_ising2d L J "gauge").n_sites
        ∧ (if k % 2 = 0 then (mk_ising2d L J "gauge").neighbours (k / 2) 3
           else (mk_ising2d L J "gauge").neighbours (k / 2) 2) <
            (mk_ising2d L J "gauge").n_sites) := by
  constructor
  · intro p hp j hj
    simp only [mk_ising2d, pow_two] at hp ⊢
    simp only [plaquetteLinks, mk_ising2d, pow_two, List.mem_cons,
      List.not_mem_nil, or_false] at hj
    have h1 := neighboursTable_lt L p hL hp 1
    have h0 := neighboursTable_lt L p hL hp 0
    rcases hj with rfl | rfl | rfl | rfl <;> omega
  · intro k hk
    simp only [mk_ising2d, pow_two] at hk ⊢
    have hp : k / 2 < L * L := by omega
    refine ⟨hp, ?_⟩
    split_ifs with h
    · exact neighboursTable_lt L (k / 2) hL hp 3
    · exact neighboursTable_lt L (k / 2) hL hp 2

/-- C10 witness: the bound evaluated for link index 0 on the 2×2 gauge
lattice. -/
theorem gauge_spin_index_bounds_witness :
    0 / 2 < (mk_ising2d 2 1 "gauge").n_sites
    ∧ (if 0 % 2 = 0 then (mk_ising2d 2 1 "gauge").neighbours (0 / 2) 3
       else (mk_ising2d 2 1 "gauge").neighbours (0 / 2) 2) <
        (mk_ising2d 2 1 "gauge").n_sites :=
  (gauge_spin_index_bounds 2 1 (by decide)).2 0 (by decide)

/-- Flipping the even-indexed link `2p` negates exactly the plaquette products
at `p` and at `p`'s upward neighbour (lattice with at least two rows). -/
theorem plaquette_flip_even (L : ℕ) (J : ℤ) (hL2 : 2 ≤ L) (s : ℕ → ℤ)
    (p q : ℕ) (hp : p < L * L) (hq : q < L * L) :
    plaquette (mk_ising2d L J "gauge") (flip_spin s (2 * p)) q =
      if q = p ∨ q = neighboursTable L (L * L) p 3
      then -(plaquette (mk_ising2d L J "gauge") s q)
      else plaquette (mk_ising2d L J "gauge") s q := by
  have hL : 0 < L := by omega
  have hnb : (mk_ising2d L J "gauge").neighbours = neighboursTable L (L * L) := by
    simp only [mk_ising2d, pow_two]
  have hdn := down_ne L p hL2 hp
  simp only [plaquette, flip_spin, Function.update_apply, hnb]
  by_cases h1 : q = p
  · subst h1
    rw [if_pos (Or.inl rfl), if_pos rfl, if_neg (by omega : ¬(2 * q + 1 = 2 * q)),
      if_neg (by omega : ¬(2 * neighboursTable L (L * L) q 1 = 2 * q)),
      if_neg (by omega : ¬(2 * neighboursTable L (L * L) q 0 + 1 = 2 * q))]
    ring
  · by_cases h2 : q = neighboursTable L (L * L) p 3
    · subst h2
      have hupne := up_ne L p hL2 hp
      have hdu := down_up_id L p hL hp
      rw [if_pos (Or.inr rfl),
        if_neg (by omega : ¬(2 * neighboursTable L (L * L) p 3 = 2 * p)),
        if_neg (by omega :
          ¬(2 * neighboursTable L (L * L) p 3 + 1 = 2 * p)),
        hdu, if_pos rfl,
        if_neg (by omega :
          ¬(2 * neighboursTable L (L * L) (neighboursTable L (L * L) p 3) 0 + 1
            = 2 * p))]
      ring
  
    · have hA : neighboursTable L (L * L) q 1 ≠ p :=
        fun hcon => h2 ((down_eq_iff L p q hL hp hq).mp hcon)
      rw [if_neg (by tauto : ¬(q = p ∨ q = neighboursTable L (L * L) p 3)),
        if_neg (by omega : ¬(2 * q = 2 * p)),
        if_neg (by omega : ¬(2 * q + 1 = 2 * p)),
        if_neg (by omega : ¬(2 * neighboursTable L (L * L) q 1 = 2 * p)),
        if_neg (by omega : ¬(2 * neighboursTable L (L * L) q 0 + 1 = 2 * p))]

/-- Flipping the odd-indexed link `2p+1` negates exactly the plaquette
products at `p` and at `p`'s left neighbour (lattice with at least two
columns). -/
theorem plaquette_flip_odd (L : ℕ) (J : ℤ) (hL2 : 2 ≤ L) (s : ℕ → ℤ)
    (p q : ℕ) (hp : p < L * L) (hq : q < L * L) :
    plaquette (mk_ising2d L J "gauge") (flip_spin s (2 * p + 1)) q =
      if q = p ∨ q = neighboursTable L (L * L) p 2
      then -(plaquette (mk_ising2d L J "gauge") s q)
      else plaquette (mk_ising2d L J "gauge") s q := by
  have hL : 0 < L := by omega
  have hnb : (mk_ising2d L J "gauge").neighbours = neighboursTable L (L * L) := by
    simp only [mk_ising2d, pow_two]
  have hrn := right_ne L p hL2 hp
  simp only [plaquette, flip_spin, Function.update_apply, hnb]
  by_cases h1 : q = p
  · subst h1
    rw [if_pos (Or.inl rfl), if_neg (by omega : ¬(2 * q = 2 * q + 1)),
      if_pos rfl,
      if_neg (by omega : ¬(2 * neighboursTable L (L * L) q 1 = 2 * q + 1)),
      if_neg (by omega :
        ¬(2 * neighboursTable L (L * L) q 0 + 1 = 2 * q + 1))]
    ring
  · by_cases h2 : q = neighboursTable L (L * L) p 2
    · subst h2
      have hlne := left_ne L p hL2 hp
      have hrl := right_left_id L p hL hp
      rw [if_pos (Or.inr rfl),
        if_neg (by omega : ¬(2 * neighboursTable L (L * L) p 2 = 2 * p + 1)),
        if_neg (by omega :
          ¬(2 * neighboursTable L (L * L) p 2 + 1 = 2 * p + 1)),
        if_neg (by omega :
          ¬(2 * neighboursTable L (L * L) (neighboursTable L (L * L) p 2) 1
            = 2 * p + 1)),
        hrl, if_pos rfl]
      ring
    · have hA : neighboursTable L (L * L) q 0 ≠ p :=
        fun hcon => h2 ((right_eq_iff L p q hL hp hq).mp hcon)
      rw [if_neg (by tauto : ¬(q = p ∨ q = neighboursTable L (L * L) p 2)),
        if_neg (by omega : ¬(2 * q = 2 * p + 1)),
        if_neg (by omega : ¬(2 * q + 1 = 2 * p + 1)),
        if_neg (by omega : ¬(2 * neighboursTable L (L * L) q 1 = 2 * p + 1)),
        if_neg (by omega :
          ¬(2 * neighboursTable L (L * L) q 0 + 1 = 2 * p + 1))]

/-- The gauge branch of `get_energy` as a finite sum of plaquette terms. -/
theorem gauge_energy_sum (L : ℕ) (J : ℤ) (s : ℕ → ℤ) :
    get_energy (mk_ising2d L J "gauge") s =
      ∑ i in Finset.range (L * L),
        -J * plaquette (mk_ising2d L J "gauge") s i := by
  have hmodel1 : ¬((mk_ising2d L J "gauge").model = "ising") := by
    simp [mk_ising2d]
  have hmodel2 : (mk_ising2d L J "gauge").model = "gauge" := rfl
  have hns : (mk_ising2d L J "gauge").n_sites = L * L := by
    simp only [mk_ising2d]
    rw [pow_two]
  simp only [get_energy, if_neg hmodel1, if_pos hmodel2, hns]
  exact (foldl_add_range _ _ 0).trans (zero_add _)

/-- C2 (amended: lattice size at least 2): in the gauge branch of `sweep` the
two plaquettes selected for link `k` (`k / 2`, with its upward neighbour for
even `k` and its left neighbour for odd `k`) are distinct and are exactly the
plaquettes whose products read `spins[k]`, and the computed
`deltaE = 2 * coupling * (plaquette_1 + plaquette_2)` equals the change of
`get_energy` caused by negating `spins[k]` alone.  On the 1×1 lattice the two
selected plaquettes coincide and the equality fails (see the
counterexample). -/
theorem gauge_sweep_deltaE_correct (L : ℕ) (J : ℤ) (s : ℕ → ℤ) (k : ℕ)
    (hL2 : 2 ≤ L) (hk : k < 2 * (mk_ising2d L J "gauge").n_sites) :
    (k / 2 ≠ (if k % 2 = 0 then (mk_ising2d L J "gauge").neighbours (k / 2) 3
              else (mk_ising2d L J "gauge").neighbours (k / 2) 2))
    ∧ (∀ q, q < (mk_ising2d L J "gauge").n_sites →
        ((q = k / 2 ∨
          q = (if k % 2 = 0 then (mk_ising2d L J "gauge").neighbours (k / 2) 3
               else (mk_ising2d L J "gauge").neighbours (k / 2) 2)) ↔
          k ∈ plaquetteLinks (mk_ising2d L J "gauge") q))
    ∧ gauge_deltaE (mk_ising2d L J "gauge") s k =
        get_energy (mk_ising2d L J "gauge") (flip_spin s k) -
          get_energy (mk_ising2d L J "gauge") s := by
  have hL : 0 < L := by omega
  have hnb : (mk_ising2d L J "gauge").neighbours = neighboursTable L (L * L) := by
    simp only [mk_ising2d, pow_two]
  have hns : (mk_ising2d L J "gauge").n_sites = L * L := by
    simp only [mk_ising2d]
    rw [pow_two]
  have hcoup : (mk_ising2d L J "gauge").coupling = J := rfl
  rw [hns] at hk
  by_cases hpar : k % 2 = 0
  · obtain ⟨p, rfl⟩ : ∃ p, k = 2 * p := ⟨k / 2, by omega⟩
    have hdiv : 2 * p / 2 = p := by omega
    have hp : p < L * L := by omega
    have hup : neighboursTable L (L * L) p 3 < L * L :=
      neighboursTable_lt L p hL hp 3
    have hune := up_ne L p hL2 hp
    have hdu := down_up_id L p hL hp
    simp only [hns, hnb, hdiv, if_pos hpar]
    refine ⟨fun h => hune h.symm, ?_, ?_⟩
    · intro q hq
      simp only [plaquetteLinks, hnb, List.mem_cons, List.not_mem_nil,
        or_false]
      constructor
      · rintro (rfl | rfl)
        · exact Or.inl rfl
        · refine Or.inr (Or.inr (Or.inl ?_))
          rw [hdu]
      · rintro (h | h | h | h)
        · exact Or.inl (by omega)
        · exact absurd h (by omega)
        · refine Or.inr ?_
          have hd : neighboursTable L (L * L) q 1 = p := by omega
          exact (down_eq_iff L p q hL hp hq).mp hd
        · exact absurd h (by omega)
    · rw [gauge_energy_sum, gauge_energy_sum, ← Finset.sum_sub_distrib]
      have hpoint : ∀ q ∈ Finset.range (L * L),
          -J * plaquette (mk_ising2d L J "gauge") (flip_spin s (2 * p)) q -
            -J * plaquette (mk_ising2d L J "gauge") s q =
          (if q = p ∨ q = neighboursTable L (L * L) p 3
           then 2 * J * plaquette (mk_ising2d L J "gauge") s q else 0) := by
        intro q hq'
        rw [plaquette_flip_even L J hL2 s p q hp (Finset.mem_range.mp hq')]
        split_ifs with h
        · ring
        · ring
      rw [Finset.sum_congr rfl hpoint,
        sum_ite_or (L * L) p (neighboursTable L (L * L) p 3)
          (fun h => hune h.symm) hp hup
          (fun q => 2 * J * plaquette (mk_ising2d L J "gauge") s q)]
      simp only [gauge_deltaE, hnb, hdiv, if_pos hpar, hcoup]
      ring
  · obtain ⟨p, rfl⟩ : ∃ p, k = 2 * p + 1 := ⟨k / 2, by omega⟩
    have hdiv : (2 * p + 1) / 2 = p := by omega
    have hp : p < L * L := by omega
    have hleft : neighboursTable L (L * L) p 2 < L * L :=
      neighboursTable_lt L p hL hp 2
    have hlne := left_ne L p hL2 hp
    have hrl := right_left_id L p hL hp
    simp only [hns, hnb, hdiv, if_neg hpar]
    refine ⟨fun h => hlne h.symm, ?_, ?_⟩
    · intro q hq
      simp only [plaquetteLinks, hnb, List.mem_cons, List.not_mem_nil,
        or_false]
      constructor
      · rintro (rfl | rfl)
        · exact Or.inr (Or.inl rfl)
        · refine Or.inr (Or.inr (Or.inr ?_))
          rw [hrl]
      · rintro (h | h | h | h)
        · exact absurd h (by omega)
        · exact Or.inl (by omega)
        · exact absurd h (by omega)
        · refine Or.inr ?_
          have hd : neighboursTable L (L * L) q 0 = p := by omega
          exact (right_eq_iff L p q hL hp hq).mp hd
    · rw [gauge_energy_sum, gauge_energy_sum, ← Finset.sum_sub_distrib]
      have hpoint : ∀ q ∈ Finset.range (L * L),
          -J * plaquette (mk_ising2d L J "gauge")
              (flip_spin s (2 * p + 1)) q -
            -J * plaquette (mk_ising2d L J "gauge") s q =
          (if q = p ∨ q = neighboursTable L (L * L) p 2
           then 2 * J * plaquette (mk_ising2d L J "gauge") s q else 0) := by
        intro q hq'
        rw [plaquette_flip_odd L J hL2 s p q hp (Finset.mem_range.mp hq')]
        split_ifs with h
        · ring
        · ring
      rw [Finset.sum_congr rfl hpoint,
        sum_ite_or (L * L) p (neighboursTable L (L * L) p 2)
          (fun h => hlne h.symm) hp hleft
          (fun q => 2 * J * plaquette (mk_ising2d L J "gauge") s q)]
      simp only [gauge_deltaE, hnb, hdiv, if_neg hpar, hcoup]
      ring

/-- C2 witness: on the 2×2 gauge lattice with all spins up, `deltaE` at link 0
equals the energy change of flipping spin 0. -/
theorem gauge_sweep_deltaE_correct_witness :
    gauge_deltaE (mk_ising2d 2 1 "gauge") (fun _ => 1) 0 =
      get_energy (mk_ising2d 2 1 "gauge") (flip_spin (fun _ => 1) 0) -
        get_energy (mk_ising2d 2 1 "gauge") (fun _ => 1) :=
  (gauge_sweep_deltaE_correct 2 1 (fun _ => 1) 0 (by omega) (by decide)).2.2

/-- C2 counterexample: on the 1×1 gauge lattice with all spins up and link 0,
the sweep's `deltaE` is `4` while negating `spins[0]` changes `get_energy` by
`0` — the two selected plaquettes coincide there, so the claimed equality with
the energy change fails. -/
theorem gauge_deltaE_L1_counterexample :
    gauge_deltaE (mk_ising2d 1 1 "gauge") (fun _ => 1) 0 = 4
    ∧ get_energy (mk_ising2d 1 1 "gauge") (flip_spin (fun _ => 1) 0) -
        get_energy (mk_ising2d 1 1 "gauge") (fun _ => 1) = 0 := by
  constructor
  · decide
  · decide
